import Mathlib

/-!
# Verification of `contrib-checker` core (`contrib_checker/core.py`, `cli.py`)

Shallow embedding of the contributor-checking logic:

* `normalize_contributor_name` — `core.py` lines 173-176
  (`re.sub(r'<[^>]+>', '', s)` followed by `' '.join(s.split()).lower()`);
* `should_include_contributor` — `core.py` lines 53-70;
* `find_missing_contributors` — `core.py` lines 178-190;
* `parse_citation_cff` / `parse_codemeta_json` — `core.py` lines 103-171,
  with the file system and the YAML/JSON parsers modelled as an
  `Option (Except ...)` input (absent file / parse failure / parsed data);
* `check_contributors_detailed` — `core.py` lines 192-273, with the two
  parsed metadata sets injected as arguments;
* `cli_exit_code` — the exit-code decision of `cli.py` `main`, lines 98-128.

Strings are lists of characters (`String.data`); Python `set` is `Finset String`.
-/

/-- The whitespace class used by Python's `str.split()` / `str.strip()`
(all characters `ch` with `ch.isspace()`): ASCII 9-13, 28-32, and the
Unicode space characters. -/
def isPySpace (c : Char) : Bool :=
  decide ((9 ≤ c.toNat ∧ c.toNat ≤ 13) ∨ (28 ≤ c.toNat ∧ c.toNat ≤ 32) ∨
    c.toNat = 133 ∨ c.toNat = 160 ∨ c.toNat = 5760 ∨
    (8192 ≤ c.toNat ∧ c.toNat ≤ 8202) ∨ c.toNat = 8232 ∨ c.toNat = 8233 ∨
    c.toNat = 8239 ∨ c.toNat = 8287 ∨ c.toNat = 12288)

/-- Python `str.lower()`: the Unicode simple lowercase mapping, implemented
here on the ASCII range (`'A'..'Z'`) and the Latin-1 Supplement range
(`U+00C0..U+00DE`, excluding the multiplication sign `U+00D7`); characters
outside these ranges are returned unchanged.  This covers every character
occurring in the strings of this development. -/
def pyCharLower (c : Char) : Char :=
  if 65 ≤ c.toNat ∧ c.toNat ≤ 90 then Char.ofNat (c.toNat + 32)
  else if 192 ≤ c.toNat ∧ c.toNat ≤ 222 ∧ c.toNat ≠ 215 then Char.ofNat (c.toNat + 32)
  else c

/-- Python `str.lower()` lifted to a character list. -/
def pyLowerL (l : List Char) : List Char := l.map pyCharLower

/-- One left-to-right pass of `re.sub(r'<[^>]+>', '', s)` (`core.py` line 175),
with explicit fuel (instantiated with the length of the list, which always
suffices).  At each position: the pattern `<[^>]+>` matches iff the current
character is `'<'`, the following maximal run of non-`'>'` characters (the
greedy `[^>]+`) is nonempty, and a `'>'` follows that run.  On a match the
whole span is deleted and scanning resumes after it; otherwise the character
is kept and scanning advances one position. -/
def stripFuel : Nat → List Char → List Char
  | 0, l => l
  | _ + 1, [] => []
  | fuel + 1, c :: rest =>
    if c = '<' ∧ rest.takeWhile (· ≠ '>') ≠ [] ∧ rest.dropWhile (· ≠ '>') ≠ [] then
      stripFuel fuel ((rest.dropWhile (· ≠ '>')).tail)
    else
      c :: stripFuel fuel rest

/-- `re.sub(r'<[^>]+>', '', s)`: remove every occurrence of the pattern. -/
def stripEmails (l : List Char) : List Char := stripFuel l.length l

/-- Python `s.split()`: auxiliary scanner; `acc` is the current word,
reversed. -/
def splitWsGo : List Char → List Char → List (List Char)
  | acc, [] => if acc = [] then [] else [acc.reverse]
  | acc, c :: rest =>
    if isPySpace c then
      if acc = [] then splitWsGo [] rest else acc.reverse :: splitWsGo [] rest
    else
      splitWsGo (c :: acc) rest

/-- Python `s.split()`: split on runs of whitespace, discarding empty words. -/
def splitWs (l : List Char) : List (List Char) := splitWsGo [] l

/-- Python `' '.join(words)`. -/
def joinW : List (List Char) → List Char
  | [] => []
  | [w] => w
  | w :: ws => w ++ ' ' :: joinW ws

/-- Python `s.strip()`: remove leading and trailing whitespace. -/
def pyStripL (l : List Char) : List Char :=
  ((l.dropWhile isPySpace).reverse.dropWhile isPySpace).reverse

/-- Python's substring test `needle in hay` (contiguous substring;
the empty needle is contained in everything). -/
def hasSubstring : List Char → List Char → Bool
  | [], needle => needle.isEmpty
  | c :: t, needle => decide ((c :: t).take needle.length = needle) || hasSubstring t needle

/-- `re.search(r'<([^>]+)>', s)` (`core.py` line 56): the capture group of the
first match, i.e. the contents of the first `<...>` span. -/
def firstBracketed : List Char → Option (List Char)
  | [] => none
  | c :: rest =>
    if c = '<' ∧ rest.takeWhile (· ≠ '>') ≠ [] ∧ rest.dropWhile (· ≠ '>') ≠ [] then
      some (rest.takeWhile (· ≠ '>'))
    else
      firstBracketed rest

/-- `ContributorChecker.normalize_contributor_name` (`core.py` lines 173-176):
`s = re.sub(r'<[^>]+>', '', s); return ' '.join(s.split()).lower()`. -/
def normalize_contributor_name (s : String) : String :=
  ⟨pyLowerL (joinW (splitWs (stripEmails s.data)))⟩

/-- The checker configuration (`core.py` `__init__` / `_get_default_config`,
and the dictionary assembled in `cli.py` lines 86-90).  The Python code reads
the dictionary with `config.get(key, default)`; the model is a total record. -/
structure CheckerConfig where
  mode : String
  ignore_emails : List String
  ignore_logins : List String

/-- `ContributorChecker.should_include_contributor` (`core.py` lines 53-70):
reject when the first bracketed span exactly matches an entry of
`ignore_emails`; reject when some entry of `ignore_logins`, lowercased, is a
substring of the lowercased line; reject when the lowercased line contains
`"bot"` or `"dependabot"`; otherwise accept. -/
def should_include_contributor (cfg : CheckerConfig) (contributor : String) : Bool :=
  if (match firstBracketed contributor.data with
      | some e => decide (String.mk e ∈ cfg.ignore_emails)
      | none => false) then false
  else if cfg.ignore_logins.any
      (fun login => hasSubstring (pyLowerL contributor.data) (pyLowerL login.data)) then false
  else if hasSubstring (pyLowerL contributor.data) "bot".data
      || hasSubstring (pyLowerL contributor.data) "dependabot".data then false
  else true

/-- The per-line collection loop shared by `get_contributors_from_range` and
`get_all_contributors` (`core.py` lines 83-88 and 95-99): strip each line,
skip empty lines, keep lines passing `should_include_contributor`. -/
def collect_contributors (cfg : CheckerConfig) (lines : List String) : Finset String :=
  lines.foldl
    (fun acc line =>
      let l := String.mk (pyStripL line.data)
      if l ≠ "" ∧ should_include_contributor cfg l then insert l acc else acc)
    ∅

/-- `ContributorChecker.find_missing_contributors` (`core.py` lines 178-190):
the contributors whose normalized key does not occur among the normalized
keys of the metadata contributors (the Python dictionary `meta_norm` is used
only for key-presence tests, so it is modelled by the image of the
normalizer). -/
def find_missing_contributors (contributors metadata_contribs : Finset String) : Finset String :=
  contributors.filter
    (fun contrib =>
      normalize_contributor_name contrib ∉
        metadata_contribs.image normalize_contributor_name)

/-- `"{name} <{email}>"` when a truthy `email` value is present, else the bare
name (`core.py` lines 124-129 and 159-164; Python's `if email:` is false for
a missing key, `None`, and the empty string — the first two are `none` here). -/
def identityWithEmail (name : String) (email : Option String) : String :=
  match email with
  | some e => if e ≠ "" then name ++ " <" ++ e ++ ">" else name
  | none => name

/-- One structured `authors:` entry of `CITATION.cff`: the four relevant keys,
each `none` when the key is absent (or has a null value). -/
structure CffPerson where
  given_names : Option String
  family_names : Option String
  name : Option String
  email : Option String

/-- One element of the `authors:` list: a bare string or a mapping. -/
inductive CffAuthor where
  | str (s : String)
  | person (p : CffPerson)

/-- The per-entry logic of `parse_citation_cff` (`core.py` lines 116-131):
a bare string is used as-is; for a mapping, the name is
`f"{given-names} {family-names}"` when both keys are present, else the
`name` key; an entry with no resulting truthy name contributes nothing. -/
def cffEntryIdentity (a : CffAuthor) : Option String :=
  match a with
  | .str s => some s
  | .person p =>
    let entryName : Option String :=
      match p.given_names, p.family_names with
      | some g, some f => some (g ++ " " ++ f)
      | _, _ => p.name
    match entryName with
    | some n => if n ≠ "" then some (identityWithEmail n p.email) else none
    | none => none

/-- The accumulation loop of `parse_citation_cff` over the `authors:` list
(`core.py` lines 113-133). -/
def parse_citation_authors (authors : List CffAuthor) : Finset String :=
  authors.foldl
    (fun acc a =>
      match cffEntryIdentity a with
      | some i => insert i acc
      | none => acc)
    ∅

/-- `ContributorChecker.parse_citation_cff` (`core.py` lines 103-136).  The
file system and the YAML parser are modelled by the argument: `none` is a
missing `CITATION.cff`; `some (.error e)` is a file that exists but fails to
parse (the body of the `except` clause); `some (.ok authors)` is the parsed
`authors:` list.  The second component collects the printed warnings. -/
def parse_citation_cff (file : Option (Except String (List CffAuthor))) :
    Finset String × List String :=
  match file with
  | none => (∅, [])
  | some (.error e) => (∅, ["Failed to parse CITATION.cff: " ++ e])
  | some (.ok authors) => (parse_citation_authors authors, [])

/-- One structured person record of `codemeta.json`. -/
structure CodemetaPerson where
  name : Option String
  givenName : Option String
  familyName : Option String
  email : Option String

/-- One element of an author-like field: a bare string or a mapping. -/
inductive CodemetaEntry where
  | str (s : String)
  | person (p : CodemetaPerson)

/-- The value of one of the fields `author` / `contributor` / `maintainer`:
absent, a single (non-list) value, or a list (`core.py` lines 150-152 wrap a
non-list value into a one-element list). -/
inductive CodemetaFieldVal where
  | absent
  | single (a : CodemetaEntry)
  | many (l : List CodemetaEntry)

/-- `authors = data.get(field, []); if not isinstance(authors, list): authors
= [authors]` (`core.py` lines 150-152). -/
def codemetaFieldList : CodemetaFieldVal → List CodemetaEntry
  | .absent => []
  | .single a => [a]
  | .many l => l

/-- The parsed top level of `codemeta.json`: the three author-like fields. -/
structure CodemetaDoc where
  author : CodemetaFieldVal
  contributor : CodemetaFieldVal
  maintainer : CodemetaFieldVal

/-- The per-entry logic of `parse_codemeta_json` (`core.py` lines 154-166):
`name = a.get('name') or (a.get('givenName', '') + ' ' +
a.get('familyName', '')).strip()`; entries whose resulting name is falsy are
skipped. -/
def codemetaEntryIdentity (a : CodemetaEntry) : Option String :=
  match a with
  | .str s => some s
  | .person p =>
    let fallback : String :=
      String.mk (pyStripL (p.givenName.getD "" ++ " " ++ p.familyName.getD "").data)
    let entryName : String :=
      match p.name with
      | some n => if n ≠ "" then n else fallback
      | none => fallback
    if entryName ≠ "" then some (identityWithEmail entryName p.email) else none

/-- The accumulation loop of `parse_codemeta_json` over the three fields
(`core.py` lines 148-166). -/
def parse_codemeta_fields (doc : CodemetaDoc) : Finset String :=
  (codemetaFieldList doc.author ++ codemetaFieldList doc.contributor ++
      codemetaFieldList doc.maintainer).foldl
    (fun acc a =>
      match codemetaEntryIdentity a with
      | some i => insert i acc
      | none => acc)
    ∅

/-- `ContributorChecker.parse_codemeta_json` (`core.py` lines 138-171), with
the file system and the JSON parser modelled as in `parse_citation_cff`. -/
def parse_codemeta_json (file : Option (Except String CodemetaDoc)) :
    Finset String × List String :=
  match file with
  | none => (∅, [])
  | some (.error e) => (∅, ["Failed to parse codemeta.json: " ++ e])
  | some (.ok doc) => (parse_codemeta_fields doc, [])

/-- The detailed results dictionary of `check_contributors_detailed`
(`core.py` lines 249-259; the fields not used by any claim are omitted). -/
structure CheckResults where
  missing_citation : Finset String
  missing_codemeta : Finset String
  missing_overall : Finset String
  metadata_combined : Finset String
  mode : String

/-- `ContributorChecker.check_contributors_detailed` (`core.py` lines
192-273), with the two parsed metadata sets injected as arguments (in the
source they come from `parse_citation_cff` / `parse_codemeta_json`): per-file
missing sets fall back to a copy of `contributors` when the file's set is
empty or missing; the overall check runs against the union of both sets; the
returned success flag is `mode != 'fail'` when something is missing overall
and `True` otherwise. -/
def check_contributors_detailed (contributors citation_cff codemeta_json : Finset String)
    (mode : String) : Bool × CheckResults :=
  let missing_citation :=
    if citation_cff ≠ ∅ then find_missing_contributors contributors citation_cff
    else contributors
  let missing_codemeta :=
    if codemeta_json ≠ ∅ then find_missing_contributors contributors codemeta_json
    else contributors
  let metadata := citation_cff ∪ codemeta_json
  let missing_overall := find_missing_contributors contributors metadata
  let success := if missing_overall ≠ ∅ then decide (mode ≠ "fail") else true
  (success, ⟨missing_citation, missing_codemeta, missing_overall, metadata, mode⟩)

/-- The exit-code decision of `cli.py` `main` (lines 98-128): an exception
anywhere in the checking code maps to exit code `1`; otherwise the code is
`1` exactly when the mode is `"fail"` and the check did not succeed, else
`0`. -/
def cli_exit_code (mode : String) (outcome : Except String Bool) : Nat :=
  match outcome with
  | .error _ => 1
  | .ok success => if mode = "fail" ∧ success = false then 1 else 0

/-- Modelled from the spec: the algorithm as worded by claim C1 — remove only
the FIRST `<...>` bracketed span (if present), split the remainder on
whitespace runs, rejoin with single spaces, lowercase.  Defined only to be
compared against `normalize_contributor_name` (whose `re.sub` removes every
span). -/
def stripFirstEmailSpec : List Char → List Char
  | [] => []
  | c :: rest =>
    if c = '<' ∧ rest.takeWhile (· ≠ '>') ≠ [] ∧ rest.dropWhile (· ≠ '>') ≠ [] then
      (rest.dropWhile (· ≠ '>')).tail
    else
      c :: stripFirstEmailSpec rest

/-- Modelled from the spec: claim C1's normalizer (first span only). -/
def normalize_first_span_spec (s : String) : String :=
  ⟨pyLowerL (joinW (splitWs (stripFirstEmailSpec s.data)))⟩

/-- Proof-scaffolding predicate for the idempotence proof: the list contains
no occurrence of the pattern `<[^>]+>` — wherever a `'<'` occurs, it is
either last, immediately followed by `'>'`, or no `'>'` occurs after it. -/
def SpanFree (l : List Char) : Prop :=
  ∀ p q, l = p ++ '<' :: q → q = [] ∨ (∃ r, q = '>' :: r) ∨ '>' ∉ q

/-- C1 counterexample: on a string with two bracketed spans,
`normalize_contributor_name` (the implementation: `re.sub` removes every
span) disagrees with the claimed first-span-only algorithm. -/
theorem C1_counterexample :
    normalize_contributor_name "A <x> B <y>" = "a b" ∧
    normalize_first_span_spec "A <x> B <y>" = "a b <y>" ∧
    normalize_contributor_name "A <x> B <y>" ≠ normalize_first_span_spec "A <x> B <y>" := by
  decide

/-- C1 (amended): `normalize` removes EVERY `<...>` bracketed span (not just
the first), splits the remainder on whitespace runs, rejoins with single
spaces, and lowercases; it is total, and `normalize "" = ""`. -/
theorem C1_normalize_all_spans :
    normalize_contributor_name "A <x> B <y>" = "a b" ∧
    normalize_contributor_name "" = "" ∧
    normalize_contributor_name "John Doe <john@x.com>" = "john doe" ∧
    normalize_contributor_name "  JOHN   DOE  " = "john doe" := by
  decide

/-- C2 counterexample: on the concrete non-trivial sets of the spec's own
union-rule example, `missing_overall` EQUALS `missing_A ∩ missing_B`; it is
not a strict subset of it. -/
theorem C2_counterexample :
    find_missing_contributors {"Alice", "Bob", "Carol"} ({"Alice"} ∪ {"Bob"}) =
      find_missing_contributors {"Alice", "Bob", "Carol"} {"Alice"} ∩
        find_missing_contributors {"Alice", "Bob", "Carol"} {"Bob"} ∧
    ¬ (find_missing_contributors {"Alice", "Bob", "Carol"} ({"Alice"} ∪ {"Bob"}) ⊂
        find_missing_contributors {"Alice", "Bob", "Carol"} {"Alice"} ∩
          find_missing_contributors {"Alice", "Bob", "Carol"} {"Bob"}) := by
  decide

/-- C2 (amended): for every actual set and pair of declared sets,
`missing_overall` (as computed by `check_contributors_detailed` against the
union of the two metadata sets) is exactly the intersection
`missing_A ∩ missing_B` — a subset, but never a strict one. -/
theorem C2_missing_overall_eq_inter (A DA DB : Finset String) (mode : String) :
    (check_contributors_detailed A DA DB mode).2.missing_overall =
      find_missing_contributors A DA ∩ find_missing_contributors A DB := by
  show find_missing_contributors A (DA ∪ DB) = _
  ext c
  simp only [find_missing_contributors, Finset.mem_filter, Finset.mem_inter,
    Finset.image_union, Finset.mem_union]
  tauto

/-- C2 witness: the general theorem applied at the spec's union-rule sets. -/
theorem C2_witness :
    (check_contributors_detailed {"Alice", "Bob", "Carol"} {"Alice"} {"Bob"} "warn").2.missing_overall =
      find_missing_contributors {"Alice", "Bob", "Carol"} {"Alice"} ∩
        find_missing_contributors {"Alice", "Bob", "Carol"} {"Bob"} :=
  C2_missing_overall_eq_inter {"Alice", "Bob", "Carol"} {"Alice"} {"Bob"} "warn"

/-- C3: `findMissing(A, D) ⊆ A`, and `findMissing(A, D) = ∅` whenever every
normalized key of an element of `A` appears among the normalized keys of
elements of `D`. -/
theorem C3_find_missing_subset_and_empty :
    (∀ A D : Finset String, find_missing_contributors A D ⊆ A) ∧
    (∀ A D : Finset String,
      (∀ c ∈ A, normalize_contributor_name c ∈ D.image normalize_contributor_name) →
      find_missing_contributors A D = ∅) := by
  constructor
  · intro A D
    exact Finset.filter_subset _ _
  · intro A D h
    unfold find_missing_contributors
    rw [Finset.filter_eq_empty_iff]
    intro c hc
    simpa using h c hc

/-- C3 witness: a concrete instance of both conjuncts. -/
theorem C3_witness :
    find_missing_contributors {"John Doe <j@x.com>"} {"JOHN  DOE"} ⊆ {"John Doe <j@x.com>"} ∧
    find_missing_contributors {"John Doe <j@x.com>"} {"JOHN  DOE"} = ∅ :=
  ⟨C3_find_missing_subset_and_empty.1 {"John Doe <j@x.com>"} {"JOHN  DOE"},
   C3_find_missing_subset_and_empty.2 {"John Doe <j@x.com>"} {"JOHN  DOE"} (by decide)⟩

/-- C5: the collector's inclusion test rejects on a configured email match of
the bracketed span, rejects on a case-insensitive `ignore_logins` substring,
unconditionally rejects lines whose lowercase form contains `"bot"` or
`"dependabot"`, and on the spec's concrete three lines exactly
`{"John Doe <john@example.com>"}` survives. -/
theorem C5_collector_filtering :
    (∀ (cfg : CheckerConfig) (s : String) (e : List Char),
        firstBracketed s.data = some e → String.mk e ∈ cfg.ignore_emails →
        should_include_contributor cfg s = false) ∧
    (∀ (cfg : CheckerConfig) (s login : String), login ∈ cfg.ignore_logins →
        hasSubstring (pyLowerL s.data) (pyLowerL login.data) = true →
        should_include_contributor cfg s = false) ∧
    (∀ (cfg : CheckerConfig) (s : String),
        hasSubstring (pyLowerL s.data) "bot".data = true ∨
        hasSubstring (pyLowerL s.data) "dependabot".data = true →
        should_include_contributor cfg s = false) ∧
    collect_contributors ⟨"warn", ["bot@example.com"], []⟩
      ["John Doe <john@example.com>", "Bot User <bot@example.com>", "dependabot[bot] <d@x.com>"]
      = {"John Doe <john@example.com>"} := by
  refine ⟨?_, ?_, ?_, by decide⟩
  · intro cfg s e he hmem
    simp [should_include_contributor, he, hmem]
  · intro cfg s login hlog hsub
    have hany : cfg.ignore_logins.any
        (fun login => hasSubstring (pyLowerL s.data) (pyLowerL login.data)) = true :=
      List.any_eq_true.mpr ⟨login, hlog, hsub⟩
    simp [should_include_contributor, hany]
  · intro cfg s hbot
    have hor : (hasSubstring (pyLowerL s.data) "bot".data
        || hasSubstring (pyLowerL s.data) "dependabot".data) = true := by
      rcases hbot with h | h <;> simp [h]
    simp [should_include_contributor, hor]

/-- C5 witness: the mandatory bot check applied to a concrete line, and the
email check applied to another. -/
theorem C5_witness :
    should_include_contributor ⟨"warn", ["bot@example.com"], []⟩ "dependabot[bot] <d@x.com>" = false ∧
    should_include_contributor ⟨"warn", ["bot@example.com"], []⟩ "Bot User <bot@example.com>" = false :=
  ⟨C5_collector_filtering.2.2.1 ⟨"warn", ["bot@example.com"], []⟩ "dependabot[bot] <d@x.com>"
      (Or.inl (by decide)),
   C5_collector_filtering.1 ⟨"warn", ["bot@example.com"], []⟩ "Bot User <bot@example.com>"
      "bot@example.com".data (by decide) (by decide)⟩

/-- C6: neither metadata extractor raises: a missing source file yields the
empty set (and no warning), and an existing file that fails to parse yields a
warning and the empty set. -/
theorem C6_extractors_never_raise :
    ((parse_citation_cff none).1 = ∅ ∧ (parse_citation_cff none).2 = []) ∧
    (∀ e, (parse_citation_cff (some (Except.error e))).1 = ∅ ∧
        (parse_citation_cff (some (Except.error e))).2 ≠ []) ∧
    ((parse_codemeta_json none).1 = ∅ ∧ (parse_codemeta_json none).2 = []) ∧
    (∀ e, (parse_codemeta_json (some (Except.error e))).1 = ∅ ∧
        (parse_codemeta_json (some (Except.error e))).2 ≠ []) := by
  refine ⟨⟨rfl, rfl⟩, fun e => ⟨rfl, by simp [parse_citation_cff]⟩,
    ⟨rfl, rfl⟩, fun e => ⟨rfl, by simp [parse_codemeta_json]⟩⟩

/-- C7: the check's success flag is `mode ≠ "fail" OR missing_overall = ∅`;
the exit code is `0` when nothing is missing overall or the mode is `warn`,
`1` when something is missing and the mode is `fail`, and `1` on any
unhandled error. -/
theorem C7_exit_code_contract :
    (∀ (A cc cj : Finset String) (mode : String),
        ((check_contributors_detailed A cc cj mode).1 = true ↔
          (mode ≠ "fail" ∨ find_missing_contributors A (cc ∪ cj) = ∅))) ∧
    (∀ (A cc cj : Finset String) (mode : String), mode = "warn" ∨ mode = "fail" →
        cli_exit_code mode (Except.ok (check_contributors_detailed A cc cj mode).1) =
          if find_missing_contributors A (cc ∪ cj) = ∅ ∨ mode = "warn" then 0 else 1) ∧
    (∀ mode e : String, cli_exit_code mode (Except.error e) = 1) := by
  refine ⟨?_, ?_, fun mode e => rfl⟩
  · intro A cc cj mode
    by_cases hm : find_missing_contributors A (cc ∪ cj) = ∅ <;>
      simp [check_contributors_detailed, hm]
  · intro A cc cj mode hmode
    rcases hmode with h | h <;> subst h <;>
      by_cases hm : find_missing_contributors A (cc ∪ cj) = ∅ <;>
      simp [check_contributors_detailed, cli_exit_code, hm]

/-- C7 witness: the exit-code part of the contract at concrete inputs, in
both modes. -/
theorem C7_witness :
    cli_exit_code "fail" (Except.ok (check_contributors_detailed {"x"} ∅ ∅ "fail").1) = 1 ∧
    cli_exit_code "warn" (Except.ok (check_contributors_detailed {"x"} ∅ ∅ "warn").1) = 0 := by
  constructor
  · have h := C7_exit_code_contract.2.1 {"x"} ∅ ∅ "fail" (Or.inr rfl)
    rw [h]
    decide
  · have h := C7_exit_code_contract.2.1 {"x"} ∅ ∅ "warn" (Or.inl rfl)
    rw [h]
    decide

/-- C9: the spec's union-rule instance: with `CITATION.cff = {"Alice"}`,
`codemeta.json = {"Bob"}` and actual contributors
`{"Alice","Bob","Carol"}`, the check reports `missing_overall = {"Carol"}`,
`missing_citation = {"Bob","Carol"}` and `missing_codemeta =
{"Alice","Carol"}`. -/
theorem C9_union_rule_instance :
    (check_contributors_detailed {"Alice", "Bob", "Carol"} {"Alice"} {"Bob"} "warn").2.missing_overall
      = {"Carol"} ∧
    (check_contributors_detailed {"Alice", "Bob", "Carol"} {"Alice"} {"Bob"} "warn").2.missing_citation
      = {"Bob", "Carol"} ∧
    (check_contributors_detailed {"Alice", "Bob", "Carol"} {"Alice"} {"Bob"} "warn").2.missing_codemeta
      = {"Alice", "Carol"} := by
  decide

/-- C10: in `parse_citation_cff`, the given/family join is used exactly when
both paired keys are present; a structured record with only one of the two
paired keys and no `name` key contributes nothing. -/
theorem C10_cff_paired_names :
    (∀ (p : CffPerson) (g f : String), p.given_names = some g → p.family_names = some f →
        cffEntryIdentity (.person p) = some (identityWithEmail (g ++ " " ++ f) p.email)) ∧
    (∀ p : CffPerson, p.family_names = none → p.name = none →
        cffEntryIdentity (.person p) = none) ∧
    (∀ p : CffPerson, p.given_names = none → p.name = none →
        cffEntryIdentity (.person p) = none) ∧
    parse_citation_authors [.person ⟨some "John", none, none, some "j@x.com"⟩] = ∅ ∧
    parse_citation_authors [.person ⟨none, some "Doe", none, some "j@x.com"⟩] = ∅ := by
  refine ⟨?_, ?_, ?_, by decide, by decide⟩
  · intro p g f hg hf
    have hne : (g ++ " " ++ f) ≠ "" := by
      intro hcontra
      have hdata := congrArg String.data hcontra
      simp at hdata
    simp [cffEntryIdentity, hg, hf, hne]
  · intro p hf hn
    cases hg : p.given_names <;> simp [cffEntryIdentity, hg, hf, hn]
  · intro p hg hn
    cases hf : p.family_names <;> simp [cffEntryIdentity, hg, hf, hn]

/-- C10 witness: a record with only `given-names` (and an email) is skipped;
a record with both paired keys joins them. -/
theorem C10_witness :
    cffEntryIdentity (.person ⟨some "John", none, none, some "j@x.com"⟩) = none ∧
    cffEntryIdentity (.person ⟨some "John", some "Doe", none, some "j@x.com"⟩)
      = some "John Doe <j@x.com>" := by
  constructor
  · exact C10_cff_paired_names.2.1 ⟨some "John", none, none, some "j@x.com"⟩ rfl rfl
  · rw [C10_cff_paired_names.1 ⟨some "John", some "Doe", none, some "j@x.com"⟩ "John" "Doe" rfl rfl]
    decide

/-- C8 counterexample: Python's `str.lower()` lowercases non-ASCII letters,
so the accented uppercase letter `É` does NOT pass through `normalize`
unchanged. -/
theorem C8_counterexample :
    normalize_contributor_name "É" = "é" ∧ normalize_contributor_name "É" ≠ "É" := by
  decide

/-- C8 (amended): normalization case-folds with the Unicode lowercase
mapping, not only ASCII: accented uppercase letters are lowercased with
their accents preserved (no transliteration), and already-lowercase accented
letters pass through unchanged. -/
theorem C8_unicode_lowercase :
    normalize_contributor_name "É" = "é" ∧
    normalize_contributor_name "Émile Zola" = "émile zola" ∧
    normalize_contributor_name "émile" = "émile" ∧
    pyCharLower 'É' = 'é' := by
  decide

/-! ## Idempotence of the normalizer (claim C4): helper lemmas -/

theorem stripFuel_congr :
    ∀ (n m : Nat) (l : List Char), l.length ≤ n → l.length ≤ m →
      stripFuel n l = stripFuel m l := by
  intro n
  induction n with
  | zero =>
    intro m l hn _
    have : l = [] := List.eq_nil_of_length_eq_zero (Nat.le_zero.mp hn)
    subst this
    cases m <;> rfl
  | succ n ih =>
    intro m l hn hm
    cases l with
    | nil => cases m <;> rfl
    | cons c rest =>
      cases m with
      | zero => simp at hm
      | succ m =>
        simp only [List.length_cons, Nat.add_le_add_iff_right] at hn hm
        show stripFuel (n + 1) (c :: rest) = stripFuel (m + 1) (c :: rest)
        unfold stripFuel
        by_cases h : c = '<' ∧ rest.takeWhile (· ≠ '>') ≠ [] ∧ rest.dropWhile (· ≠ '>') ≠ []
        · rw [if_pos h, if_pos h]
          have hlen : ((rest.dropWhile (· ≠ '>')).tail).length ≤ rest.length :=
            le_trans ((List.tail_sublist _).length_le) ((List.dropWhile_sublist _).length_le)
          exact ih m _ (le_trans hlen hn) (le_trans hlen hm)
        · rw [if_neg h, if_neg h]
          rw [ih m rest hn hm]

theorem stripEmails_cons (c : Char) (rest : List Char) :
    stripEmails (c :: rest) =
      if c = '<' ∧ rest.takeWhile (· ≠ '>') ≠ [] ∧ rest.dropWhile (· ≠ '>') ≠ [] then
        stripEmails ((rest.dropWhile (· ≠ '>')).tail)
      else
        c :: stripEmails rest := by
  show stripFuel (rest.length + 1) (c :: rest) = _
  unfold stripFuel
  by_cases h : c = '<' ∧ rest.takeWhile (· ≠ '>') ≠ [] ∧ rest.dropWhile (· ≠ '>') ≠ []
  · rw [if_pos h, if_pos h]
    apply stripFuel_congr
    · exact le_trans ((List.tail_sublist _).length_le) ((List.dropWhile_sublist _).length_le)
    · exact le_refl _
  · rw [if_neg h, if_neg h]
    rfl

theorem mem_of_mem_stripEmails :
    ∀ (n : Nat) (l : List Char), l.length ≤ n → ∀ a, a ∈ stripEmails l → a ∈ l := by
  intro n
  induction n with
  | zero =>
    intro l hn
    have : l = [] := List.eq_nil_of_length_eq_zero (Nat.le_zero.mp hn)
    subst this
    intro a ha
    exact ha
  | succ n ih =>
    intro l hn a ha
    cases l with
    | nil => exact ha
    | cons c rest =>
      simp only [List.length_cons, Nat.add_le_add_iff_right] at hn
      rw [stripEmails_cons] at ha
      by_cases h : c = '<' ∧ rest.takeWhile (· ≠ '>') ≠ [] ∧ rest.dropWhile (· ≠ '>') ≠ []
      · rw [if_pos h] at ha
        have hlen : ((rest.dropWhile (· ≠ '>')).tail).length ≤ n :=
          le_trans (le_trans ((List.tail_sublist _).length_le)
            ((List.dropWhile_sublist _).length_le)) hn
        have hmem := ih _ hlen a ha
        have : a ∈ rest :=
          (List.dropWhile_sublist (· ≠ '>')).mem ((List.tail_sublist _).mem hmem)
        exact List.mem_cons_of_mem c this
      · rw [if_neg h] at ha
        rcases List.mem_cons.mp ha with h1 | h1
        · exact h1 ▸ List.mem_cons_self c rest
        · exact List.mem_cons_of_mem c (ih rest hn a h1)

theorem spanFree_nil : SpanFree [] := by
  intro p q h
  rcases p with _ | ⟨x, p⟩ <;> simp at h

theorem spanFree_of_append_right (a b : List Char) (h : SpanFree (a ++ b)) : SpanFree b := by
  intro p q hb
  exact h (a ++ p) q (by rw [hb, List.append_assoc])

theorem spanFree_cons_elim (c : Char) (l : List Char) (h : SpanFree (c :: l)) : SpanFree l :=
  spanFree_of_append_right [c] l h

theorem stripEmails_eq_self_of_spanFree :
    ∀ (n : Nat) (l : List Char), l.length ≤ n → SpanFree l → stripEmails l = l := by
  intro n
  induction n with
  | zero =>
    intro l hn _
    have : l = [] := List.eq_nil_of_length_eq_zero (Nat.le_zero.mp hn)
    subst this
    rfl
  | succ n ih =>
    intro l hn hsf
    cases l with
    | nil => rfl
    | cons c rest =>
      simp only [List.length_cons, Nat.add_le_add_iff_right] at hn
      rw [stripEmails_cons]
      by_cases h : c = '<' ∧ rest.takeWhile (· ≠ '>') ≠ [] ∧ rest.dropWhile (· ≠ '>') ≠ []
      · exfalso
        obtain ⟨hc, htw, hdw⟩ := h
        subst hc
        rcases hsf [] rest rfl with h1 | ⟨r, h1⟩ | h1
        · subst h1
          simp at htw
        · subst h1
          simp [List.takeWhile_cons] at htw
        · apply hdw
          rw [List.dropWhile_eq_nil_iff]
          intro a ha
          simp
          intro hEq
          exact h1 (hEq ▸ ha)
      · rw [if_neg h]
        rw [ih rest hn (spanFree_cons_elim c rest hsf)]

theorem spanFree_stripEmails :
    ∀ (n : Nat) (l : List Char), l.length ≤ n → SpanFree (stripEmails l) := by
  intro n
  induction n with
  | zero =>
    intro l hn
    have : l = [] := List.eq_nil_of_length_eq_zero (Nat.le_zero.mp hn)
    subst this
    exact spanFree_nil
  | succ n ih =>
    intro l hn
    cases l with
    | nil => exact spanFree_nil
    | cons c rest =>
      simp only [List.length_cons, Nat.add_le_add_iff_right] at hn
      rw [stripEmails_cons]
      by_cases h : c = '<' ∧ rest.takeWhile (· ≠ '>') ≠ [] ∧ rest.dropWhile (· ≠ '>') ≠ []
      · rw [if_pos h]
        have hlen : ((rest.dropWhile (· ≠ '>')).tail).length ≤ n :=
          le_trans (le_trans ((List.tail_sublist _).length_le)
            ((List.dropWhile_sublist _).length_le)) hn
        exact ih _ hlen
      · rw [if_neg h]
        have ihrest : SpanFree (stripEmails rest) := ih rest hn
        intro p q hpq
        cases p with
        | nil =>
          simp only [List.nil_append, List.cons.injEq] at hpq
          obtain ⟨hc, hq⟩ := hpq
          have hnb : ¬(rest.takeWhile (· ≠ '>') ≠ [] ∧ rest.dropWhile (· ≠ '>') ≠ []) :=
            fun hh => h ⟨hc, hh⟩
          by_cases htw : rest.takeWhile (· ≠ '>') = []
          · cases rest with
            | nil =>
              left
              rw [← hq]
              rfl
            | cons d rt =>
              rw [List.takeWhile_cons] at htw
              by_cases hd : (d ≠ '>')
              · simp [hd] at htw
              · have hd2 : d = '>' := by
                  by_contra hcon
                  exact hd hcon
                subst hd2
                right; left
                refine ⟨stripEmails rt, ?_⟩
                rw [← hq, stripEmails_cons]
                rw [if_neg (by simp)]
          · have hdw : rest.dropWhile (· ≠ '>') = [] := by
              by_contra hdw
              exact hnb ⟨htw, hdw⟩
            right; right
            have hnotin : '>' ∉ rest := by
              intro hin
              have := List.dropWhile_eq_nil_iff.mp hdw '>' hin
              simp at this
            intro hin
            rw [← hq] at hin
            exact hnotin (mem_of_mem_stripEmails rest.length rest (le_refl _) '>' hin)
        | cons x p2 =>
          simp only [List.cons_append, List.cons.injEq] at hpq
          exact ihrest p2 q hpq.2

theorem takeWhile_append_of_all (p : Char → Bool) :
    ∀ (xs ys : List Char), (∀ a ∈ xs, p a = true) →
      (xs ++ ys).takeWhile p = xs ++ ys.takeWhile p := by
  intro xs
  induction xs with
  | nil => intro ys _; rfl
  | cons x xt ih =>
    intro ys h
    rw [List.cons_append, List.takeWhile_cons, if_pos (h x (List.mem_cons_self x xt)),
      List.cons_append, ih ys (fun a ha => h a (List.mem_cons_of_mem x ha))]

theorem dropWhile_append_of_all (p : Char → Bool) :
    ∀ (xs ys : List Char), (∀ a ∈ xs, p a = true) →
      (xs ++ ys).dropWhile p = ys.dropWhile p := by
  intro xs
  induction xs with
  | nil => intro ys _; rfl
  | cons x xt ih =>
    intro ys h
    rw [List.cons_append, List.dropWhile_cons_of_pos (h x (List.mem_cons_self x xt)),
      ih ys (fun a ha => h a (List.mem_cons_of_mem x ha))]

theorem splitWsGo_word :
    ∀ (r acc : List Char), acc ≠ [] →
      splitWsGo acc r =
        (acc.reverse ++ r.takeWhile (fun c => !isPySpace c)) ::
          splitWs (r.dropWhile (fun c => !isPySpace c)) := by
  intro r
  induction r with
  | nil =>
    intro acc hacc
    show (if acc = [] then [] else [acc.reverse]) = _
    rw [if_neg hacc]
    simp [splitWs, splitWsGo]
  | cons c rt ih =>
    intro acc hacc
    show (if isPySpace c then
        (if acc = [] then splitWsGo [] rt else acc.reverse :: splitWsGo [] rt)
      else splitWsGo (c :: acc) rt) = _
    by_cases hc : isPySpace c
    · rw [if_pos hc, if_neg hacc, List.takeWhile_cons, List.dropWhile_cons]
      simp only [hc, Bool.not_true, Bool.false_eq_true, if_false, List.append_nil]
      congr 1
      show splitWsGo [] rt = splitWs (c :: rt)
      show splitWsGo [] rt =
        (if isPySpace c then
          (if ([] : List Char) = [] then splitWsGo [] rt
           else ([] : List Char).reverse :: splitWsGo [] rt)
         else splitWsGo [c] rt)
      rw [if_pos hc, if_pos rfl]
    · have hc2 : (!isPySpace c) = true := by simp [hc]
      rw [if_neg hc, ih (c :: acc) (by simp), List.takeWhile_cons, List.dropWhile_cons]
      simp only [hc2, if_true]
      rw [List.reverse_cons, List.append_assoc]
      rfl

theorem splitWs_cons (c : Char) (rest : List Char) :
    splitWs (c :: rest) =
      if isPySpace c then splitWs rest
      else (c :: rest.takeWhile (fun x => !isPySpace x)) ::
        splitWs (rest.dropWhile (fun x => !isPySpace x)) := by
  show (if isPySpace c then
      (if ([] : List Char) = [] then splitWsGo [] rest else _)
    else splitWsGo [c] rest) = _
  by_cases hc : isPySpace c
  · rw [if_pos hc, if_pos rfl, if_pos hc]
    rfl
  · rw [if_neg hc, if_neg hc, splitWsGo_word rest [c] (by simp)]
    rfl

theorem splitWs_words :
    ∀ (n : Nat) (l : List Char), l.length ≤ n →
      ∀ w ∈ splitWs l, w ≠ [] ∧ ∀ c ∈ w, isPySpace c = false := by
  intro n
  induction n with
  | zero =>
    intro l hn
    have : l = [] := List.eq_nil_of_length_eq_zero (Nat.le_zero.mp hn)
    subst this
    intro w hw
    simp [splitWs, splitWsGo] at hw
  | succ n ih =>
    intro l hn w hw
    cases l with
    | nil => simp [splitWs, splitWsGo] at hw
    | cons c rest =>
      simp only [List.length_cons, Nat.add_le_add_iff_right] at hn
      rw [splitWs_cons] at hw
      by_cases hc : isPySpace c
      · rw [if_pos hc] at hw
        exact ih rest hn w hw
      · rw [if_neg hc] at hw
        rcases List.mem_cons.mp hw with h1 | h1
        · subst h1
          refine ⟨by simp, ?_⟩
          intro a ha
          rcases List.mem_cons.mp ha with h2 | h2
          · subst h2
            exact Bool.of_not_eq_true hc
          · have := List.mem_takeWhile_imp h2
            simpa using this
        · have hlen : (rest.dropWhile (fun x => !isPySpace x)).length ≤ n :=
            le_trans ((List.dropWhile_sublist _).length_le) hn
          exact ih _ hlen w h1

theorem splitWs_joinW :
    ∀ ws : List (List Char),
      (∀ w ∈ ws, w ≠ [] ∧ ∀ c ∈ w, isPySpace c = false) →
      splitWs (joinW ws) = ws := by
  intro ws
  induction ws with
  | nil => intro _; rfl
  | cons w vs ih =>
    intro h
    obtain ⟨hw, hwc⟩ := h w (List.mem_cons_self w vs)
    cases w with
    | nil => exact absurd rfl hw
    | cons wc wt =>
      have hwcns : isPySpace wc = false := hwc wc (List.mem_cons_self wc wt)
      have hwtall : ∀ a ∈ wt, (!isPySpace a) = true := by
        intro a ha
        simp [hwc a (List.mem_cons_of_mem wc ha)]
      cases vs with
      | nil =>
        show splitWs (wc :: wt) = [wc :: wt]
        rw [splitWs_cons, if_neg (by simp [hwcns])]
        rw [List.takeWhile_eq_self_iff.mpr hwtall,
          List.dropWhile_eq_nil_iff.mpr hwtall]
        rfl
      | cons v vs2 =>
        show splitWs ((wc :: wt) ++ ' ' :: joinW (v :: vs2)) = _
        rw [List.cons_append, splitWs_cons, if_neg (by simp [hwcns])]
        rw [takeWhile_append_of_all _ wt (' ' :: joinW (v :: vs2)) hwtall]
        rw [dropWhile_append_of_all _ wt (' ' :: joinW (v :: vs2)) hwtall]
        have hsp : isPySpace ' ' = true := by decide
        rw [List.takeWhile_cons, List.dropWhile_cons]
        simp only [hsp, Bool.not_true, Bool.false_eq_true, if_false, List.append_nil]
        rw [splitWs_cons, if_pos hsp]
        rw [ih (fun u hu => h u (List.mem_cons_of_mem (wc :: wt) hu))]

theorem mem_joinW :
    ∀ (ws : List (List Char)) (c : Char), c ∈ joinW ws →
      (∃ w ∈ ws, c ∈ w) ∨ c = ' ' := by
  intro ws
  induction ws with
  | nil => intro c hc; simp [joinW] at hc
  | cons w vs ih =>
    intro c hc
    cases vs with
    | nil =>
      left
      exact ⟨w, List.mem_cons_self w [], hc⟩
    | cons v vs2 =>
      have : c ∈ w ++ ' ' :: joinW (v :: vs2) := hc
      rcases List.mem_append.mp this with h1 | h1
      · exact Or.inl ⟨w, List.mem_cons_self w _, h1⟩
      · rcases List.mem_cons.mp h1 with h2 | h2
        · exact Or.inr h2
        · rcases ih c h2 with ⟨u, hu, hcu⟩ | h3
          · exact Or.inl ⟨u, List.mem_cons_of_mem w hu, hcu⟩
          · exact Or.inr h3

theorem mem_of_mem_splitWs :
    ∀ (n : Nat) (l : List Char), l.length ≤ n →
      ∀ w ∈ splitWs l, ∀ c ∈ w, c ∈ l := by
  intro n
  induction n with
  | zero =>
    intro l hn
    have : l = [] := List.eq_nil_of_length_eq_zero (Nat.le_zero.mp hn)
    subst this
    intro w hw
    simp [splitWs, splitWsGo] at hw
  | succ n ih =>
    intro l hn w hw c hc
    cases l with
    | nil => simp [splitWs, splitWsGo] at hw
    | cons d rest =>
      simp only [List.length_cons, Nat.add_le_add_iff_right] at hn
      rw [splitWs_cons] at hw
      by_cases hd : isPySpace d
      · rw [if_pos hd] at hw
        exact List.mem_cons_of_mem d (ih rest hn w hw c hc)
      · rw [if_neg hd] at hw
        rcases List.mem_cons.mp hw with h1 | h1
        · subst h1
          rcases List.mem_cons.mp hc with h2 | h2
          · exact h2 ▸ List.mem_cons_self d rest
          · exact List.mem_cons_of_mem d ((List.takeWhile_sublist _).mem h2)
        · have hlen : (rest.dropWhile (fun x => !isPySpace x)).length ≤ n :=
            le_trans ((List.dropWhile_sublist _).length_le) hn
          have := ih _ hlen w h1 c hc
          exact List.mem_cons_of_mem d ((List.dropWhile_sublist _).mem this)

theorem all_space_of_splitWs_nil :
    ∀ (n : Nat) (l : List Char), l.length ≤ n → splitWs l = [] →
      ∀ c ∈ l, isPySpace c = true := by
  intro n
  induction n with
  | zero =>
    intro l hn _
    have : l = [] := List.eq_nil_of_length_eq_zero (Nat.le_zero.mp hn)
    subst this
    intro c hc
    simp at hc
  | succ n ih =>
    intro l hn hnil c hc
    cases l with
    | nil => simp at hc
    | cons d rest =>
      simp only [List.length_cons, Nat.add_le_add_iff_right] at hn
      rw [splitWs_cons] at hnil
      by_cases hd : isPySpace d
      · rw [if_pos hd] at hnil
        rcases List.mem_cons.mp hc with h1 | h1
        · exact h1 ▸ hd
        · exact ih rest hn hnil c h1
      · rw [if_neg hd] at hnil
        simp at hnil

theorem head_dropWhile_false (p : Char → Bool) :
    ∀ l : List Char, l.dropWhile p ≠ [] →
      ∃ a t, l.dropWhile p = a :: t ∧ p a = false := by
  intro l
  induction l with
  | nil => intro h; simp at h
  | cons c rest ih =>
    intro h
    rw [List.dropWhile_cons]
    by_cases hc : p c
    · rw [List.dropWhile_cons, if_pos hc] at h
      simpa [hc] using ih h
    · have hc2 : p c = false := Bool.of_not_eq_true hc
      exact ⟨c, rest, by simp [hc2], hc2⟩

theorem spanFree_word_append (w r J : List Char)
    (hwr : SpanFree (w ++ r)) (hJ : SpanFree J)
    (hmem : ∀ ch ∈ J, ch ∈ r ∨ ch = ' ')
    (hr : ∃ rh rt, r = rh :: rt ∧ isPySpace rh = true) :
    SpanFree (w ++ ' ' :: J) := by
  intro p q hpq
  rcases List.append_eq_append_iff.mp hpq with ⟨e, hp, he⟩ | ⟨e, hw, he⟩
  · cases e with
    | nil => simp at he
    | cons x e2 =>
      rw [List.cons_append] at he
      injection he with hx hJ2
      exact hJ e2 q hJ2
  · cases e with
    | nil => simp at he
    | cons x qw =>
      rw [List.cons_append] at he
      injection he with hx hq
      subst hx
      rcases hwr p (qw ++ r) (by rw [hw, List.append_assoc, List.cons_append]) with
        h1 | ⟨r2, h1⟩ | h1
      · obtain ⟨rfl, hrnil⟩ := List.append_eq_nil.mp h1
        obtain ⟨rh, rt, hre, _⟩ := hr
        rw [hre] at hrnil
        exact absurd hrnil (by simp)
      · cases qw with
        | nil =>
          obtain ⟨rh, rt, hre, hws⟩ := hr
          rw [List.nil_append] at h1
          rw [hre] at h1
          injection h1 with hh _
          rw [hh] at hws
          exact absurd hws (by decide)
        | cons x2 qw2 =>
          rw [List.cons_append] at h1
          injection h1 with hx2 _
          subst hx2
          right; left
          exact ⟨qw2 ++ ' ' :: J, by rw [hq, List.cons_append]⟩
      · right; right
        rw [hq]
        intro hin
        rcases List.mem_append.mp hin with h2 | h2
        · exact h1 (List.mem_append_left r h2)
        · rcases List.mem_cons.mp h2 with h3 | h3
          · simp at h3
          · rcases hmem '>' h3 with h4 | h4
            · exact h1 (List.mem_append_right qw h4)
            · simp at h4

theorem spanFree_append_left (w r : List Char)
    (hwr : SpanFree (w ++ r)) : SpanFree w := by
  intro p q hw
  rcases hwr p (q ++ r) (by rw [hw, List.append_assoc, List.cons_append]) with
    h1 | ⟨r2, h1⟩ | h1
  · left
    exact (List.append_eq_nil.mp h1).1
  · cases q with
    | nil => left; rfl
    | cons x q2 =>
      rw [List.cons_append] at h1
      injection h1 with hx _
      subst hx
      right; left
      exact ⟨q2, rfl⟩
  · right; right
    intro hin
    exact h1 (List.mem_append_left r hin)

theorem spanFree_collapse :
    ∀ (n : Nat) (l : List Char), l.length ≤ n → SpanFree l →
      SpanFree (joinW (splitWs l)) := by
  intro n
  induction n with
  | zero =>
    intro l hn _
    have : l = [] := List.eq_nil_of_length_eq_zero (Nat.le_zero.mp hn)
    subst this
    exact spanFree_nil
  | succ n ih =>
    intro l hn hsf
    cases l with
    | nil => exact spanFree_nil
    | cons c rest =>
      simp only [List.length_cons, Nat.add_le_add_iff_right] at hn
      rw [splitWs_cons]
      by_cases hc : isPySpace c
      · rw [if_pos hc]
        exact ih rest hn (spanFree_cons_elim c rest hsf)
      · rw [if_neg hc]
        have hl : c :: rest =
            (c :: rest.takeWhile (fun x => !isPySpace x)) ++
              rest.dropWhile (fun x => !isPySpace x) := by
          rw [List.cons_append, List.takeWhile_append_dropWhile]
        cases hdw : splitWs (rest.dropWhile (fun x => !isPySpace x)) with
        | nil =>
          show SpanFree (c :: rest.takeWhile (fun x => !isPySpace x))
          apply spanFree_append_left _ (rest.dropWhile (fun x => !isPySpace x))
          rw [← hl]
          exact hsf
        | cons w2 ws2 =>
          show SpanFree ((c :: rest.takeWhile (fun x => !isPySpace x)) ++
            ' ' :: joinW (w2 :: ws2))
          rw [← hdw]
          apply spanFree_word_append
          · rw [← hl]; exact hsf
          · have hlen : (rest.dropWhile (fun x => !isPySpace x)).length ≤ n :=
              le_trans ((List.dropWhile_sublist _).length_le) hn
            exact ih _ hlen (spanFree_of_append_right _ _ (hl ▸ hsf))
          · intro ch hch
            have hlen : (rest.dropWhile (fun x => !isPySpace x)).length ≤ n :=
              le_trans ((List.dropWhile_sublist _).length_le) hn
            rcases mem_joinW _ ch hch with ⟨u, hu, hchu⟩ | h2
            · exact Or.inl (mem_of_mem_splitWs n _ hlen u hu ch hchu)
            · exact Or.inr h2
          · have hne : rest.dropWhile (fun x => !isPySpace x) ≠ [] := by
              intro hcon
              rw [hcon] at hdw
              simp [splitWs, splitWsGo] at hdw
            obtain ⟨a, t, hat, hpa⟩ := head_dropWhile_false _ _ hne
            exact ⟨a, t, hat, by simpa using hpa⟩

theorem toNat_ofNat_small (n : Nat) (h : n < 55296) : (Char.ofNat n).toNat = n := by
  have hv : n.isValidChar := Or.inl h
  unfold Char.ofNat
  rw [dif_pos hv]
  simp [Char.ofNatAux, Char.toNat, UInt32.toNat]

theorem char_eq_iff_toNat (c d : Char) : c = d ↔ c.toNat = d.toNat := by
  constructor
  · intro h
    exact congrArg Char.toNat h
  · intro h
    exact Char.eq_of_val_eq (UInt32.toNat.inj h)

theorem pyCharLower_toNat (c : Char) :
    (pyCharLower c).toNat =
      if 65 ≤ c.toNat ∧ c.toNat ≤ 90 then c.toNat + 32
      else if 192 ≤ c.toNat ∧ c.toNat ≤ 222 ∧ c.toNat ≠ 215 then c.toNat + 32
      else c.toNat := by
  unfold pyCharLower
  by_cases h1 : 65 ≤ c.toNat ∧ c.toNat ≤ 90
  · rw [if_pos h1, if_pos h1]
    exact toNat_ofNat_small _ (by omega)
  · rw [if_neg h1, if_neg h1]
    by_cases h2 : 192 ≤ c.toNat ∧ c.toNat ≤ 222 ∧ c.toNat ≠ 215
    · rw [if_pos h2, if_pos h2]
      exact toNat_ofNat_small _ (by omega)
    · rw [if_neg h2, if_neg h2]

theorem pyCharLower_eq_lt_iff (c : Char) : pyCharLower c = '<' ↔ c = '<' := by
  rw [char_eq_iff_toNat, char_eq_iff_toNat, pyCharLower_toNat]
  show _ = 60 ↔ _ = 60
  split_ifs with h1 h2 <;> omega

theorem pyCharLower_eq_gt_iff (c : Char) : pyCharLower c = '>' ↔ c = '>' := by
  rw [char_eq_iff_toNat, char_eq_iff_toNat, pyCharLower_toNat]
  show _ = 62 ↔ _ = 62
  split_ifs with h1 h2 <;> omega

theorem isPySpace_pyCharLower (c : Char) : isPySpace (pyCharLower c) = isPySpace c := by
  unfold isPySpace
  rw [decide_eq_decide, pyCharLower_toNat]
  split_ifs with h1 h2 <;> omega

theorem pyCharLower_idem (c : Char) : pyCharLower (pyCharLower c) = pyCharLower c := by
  rw [char_eq_iff_toNat, pyCharLower_toNat, pyCharLower_toNat]
  split_ifs <;> omega

theorem pyLowerL_idem (l : List Char) : pyLowerL (pyLowerL l) = pyLowerL l := by
  unfold pyLowerL
  rw [List.map_map]
  have : pyCharLower ∘ pyCharLower = pyCharLower := funext pyCharLower_idem
  rw [this]

theorem comp_ne_gt_lower :
    ((fun a => decide (a ≠ '>')) ∘ pyCharLower) = (fun a : Char => decide (a ≠ '>')) := by
  funext a
  simp only [Function.comp_apply]
  rw [decide_eq_decide]
  exact not_congr (pyCharLower_eq_gt_iff a)

theorem comp_not_space_lower :
    ((fun x => !isPySpace x) ∘ pyCharLower) = (fun x : Char => !isPySpace x) := by
  funext a
  simp only [Function.comp_apply, isPySpace_pyCharLower]

theorem stripEmails_map_lower :
    ∀ (n : Nat) (l : List Char), l.length ≤ n →
      stripEmails (pyLowerL l) = pyLowerL (stripEmails l) := by
  intro n
  induction n with
  | zero =>
    intro l hn
    have : l = [] := List.eq_nil_of_length_eq_zero (Nat.le_zero.mp hn)
    subst this
    rfl
  | succ n ih =>
    intro l hn
    cases l with
    | nil => rfl
    | cons c rest =>
      simp only [List.length_cons, Nat.add_le_add_iff_right] at hn
      show stripEmails (pyCharLower c :: pyLowerL rest) = pyLowerL (stripEmails (c :: rest))
      rw [stripEmails_cons, stripEmails_cons]
      have htw : (pyLowerL rest).takeWhile (· ≠ '>') = pyLowerL (rest.takeWhile (· ≠ '>')) := by
        unfold pyLowerL
        rw [List.takeWhile_map, comp_ne_gt_lower]
      have hdw : (pyLowerL rest).dropWhile (· ≠ '>') = pyLowerL (rest.dropWhile (· ≠ '>')) := by
        unfold pyLowerL
        rw [List.dropWhile_map, comp_ne_gt_lower]
      by_cases h : c = '<' ∧ rest.takeWhile (· ≠ '>') ≠ [] ∧ rest.dropWhile (· ≠ '>') ≠ []
      · have h' : pyCharLower c = '<' ∧ (pyLowerL rest).takeWhile (· ≠ '>') ≠ [] ∧
            (pyLowerL rest).dropWhile (· ≠ '>') ≠ [] := by
          refine ⟨(pyCharLower_eq_lt_iff c).mpr h.1, ?_, ?_⟩
          · rw [htw]
            simpa [pyLowerL] using h.2.1
          · rw [hdw]
            simpa [pyLowerL] using h.2.2
        rw [if_pos h, if_pos h']
        have hlen : ((rest.dropWhile (· ≠ '>')).tail).length ≤ n :=
          le_trans (le_trans ((List.tail_sublist _).length_le)
            ((List.dropWhile_sublist _).length_le)) hn
        rw [hdw]
        show stripEmails ((List.map pyCharLower (rest.dropWhile (· ≠ '>'))).tail) = _
        rw [← List.map_tail]
        exact ih _ hlen
      · have h' : ¬(pyCharLower c = '<' ∧ (pyLowerL rest).takeWhile (· ≠ '>') ≠ [] ∧
            (pyLowerL rest).dropWhile (· ≠ '>') ≠ []) := by
          intro hcon
          apply h
          refine ⟨(pyCharLower_eq_lt_iff c).mp hcon.1, ?_, ?_⟩
          · intro hz
            apply hcon.2.1
            rw [htw, hz]
            rfl
          · intro hz
            apply hcon.2.2
            rw [hdw, hz]
            rfl
        rw [if_neg h, if_neg h']
        show pyCharLower c :: stripEmails (pyLowerL rest) =
          pyLowerL (c :: stripEmails rest)
        rw [ih rest hn]
        rfl

theorem splitWs_map_lower :
    ∀ (n : Nat) (l : List Char), l.length ≤ n →
      splitWs (pyLowerL l) = (splitWs l).map pyLowerL := by
  intro n
  induction n with
  | zero =>
    intro l hn
    have : l = [] := List.eq_nil_of_length_eq_zero (Nat.le_zero.mp hn)
    subst this
    rfl
  | succ n ih =>
    intro l hn
    cases l with
    | nil => rfl
    | cons c rest =>
      simp only [List.length_cons, Nat.add_le_add_iff_right] at hn
      show splitWs (pyCharLower c :: pyLowerL rest) = (splitWs (c :: rest)).map pyLowerL
      rw [splitWs_cons, splitWs_cons, isPySpace_pyCharLower]
      have htw : (pyLowerL rest).takeWhile (fun x => !isPySpace x) =
          pyLowerL (rest.takeWhile (fun x => !isPySpace x)) := by
        unfold pyLowerL
        rw [List.takeWhile_map, comp_not_space_lower]
      have hdw : (pyLowerL rest).dropWhile (fun x => !isPySpace x) =
          pyLowerL (rest.dropWhile (fun x => !isPySpace x)) := by
        unfold pyLowerL
        rw [List.dropWhile_map, comp_not_space_lower]
      by_cases hc : isPySpace c
      · rw [if_pos hc, if_pos hc]
        exact ih rest hn
      · rw [if_neg hc, if_neg hc]
        rw [htw, hdw]
        have hlen : (rest.dropWhile (fun x => !isPySpace x)).length ≤ n :=
          le_trans ((List.dropWhile_sublist _).length_le) hn
        rw [ih _ hlen]
        rfl

theorem joinW_map_lower :
    ∀ ws : List (List Char), joinW (ws.map pyLowerL) = pyLowerL (joinW ws) := by
  intro ws
  induction ws with
  | nil => rfl
  | cons w vs ih =>
    cases vs with
    | nil => rfl
    | cons v vs2 =>
      show joinW (pyLowerL w :: (v :: vs2).map pyLowerL) = pyLowerL (w ++ ' ' :: joinW (v :: vs2))
      show pyLowerL w ++ ' ' :: joinW ((v :: vs2).map pyLowerL) = _
      rw [ih]
      show _ = List.map pyCharLower (w ++ ' ' :: joinW (v :: vs2))
      rw [List.map_append, List.map_cons]
      have : pyCharLower ' ' = ' ' := by decide
      rw [this]
      rfl

/-- C4: `normalize` is idempotent — for every string `x`,
`normalize(normalize(x)) = normalize(x)`. -/
theorem C4_normalize_idempotent (s : String) :
    normalize_contributor_name (normalize_contributor_name s) = normalize_contributor_name s := by
  unfold normalize_contributor_name
  congr 1
  show pyLowerL (joinW (splitWs (stripEmails
      (pyLowerL (joinW (splitWs (stripEmails s.data))))))) =
    pyLowerL (joinW (splitWs (stripEmails s.data)))
  rw [stripEmails_map_lower (joinW (splitWs (stripEmails s.data))).length _ (le_refl _)]
  rw [splitWs_map_lower (stripEmails (joinW (splitWs (stripEmails s.data)))).length _ (le_refl _)]
  rw [joinW_map_lower]
  rw [pyLowerL_idem]
  have hsf : SpanFree (joinW (splitWs (stripEmails s.data))) :=
    spanFree_collapse (stripEmails s.data).length _ (le_refl _)
      (spanFree_stripEmails s.data.length s.data (le_refl _))
  rw [stripEmails_eq_self_of_spanFree (joinW (splitWs (stripEmails s.data))).length _
    (le_refl _) hsf]
  rw [splitWs_joinW (splitWs (stripEmails s.data))
    (fun w hw => splitWs_words (stripEmails s.data).length _ (le_refl _) w hw)]
